import Mathlib

/-!
Verification of the LLM-Secrets prototype (segmenter, classifier, cipher
pipeline, store, orchestrator) against its natural-language specification.
The Python sources in `src/` are shallowly embedded: strings become
`String`/`List Char`, bytes become `List Nat` (each element `< 256`),
Python floats in the scoring code become exact rationals (`ℚ`), and the
ambient effects (wall clock, `os.urandom`, the file system) become explicit
parameters: clocks and IVs are streams indexed by the orchestrator's id
counter, and the file system is an association list from paths to byte
strings.  The AES block permutation itself comes from an external library
(`cryptography`), so it is a parameter `E : List Nat → List Nat → List Nat`
(key, 16-byte block ↦ 16-byte block); everything the repository itself does
around it (PKCS#7 padding, CBC chaining, IV prefixing, base64 key decoding,
regex classification, storage paths, metadata) is modelled concretely.
-/

namespace LLMSecrets

/-! ### Character-level Python primitives -/

/-- The whitespace characters of Python's `str.strip` / `str.split` / `\s`
(ASCII range; the embedding treats ASCII text). -/
def pyIsSpace (c : Char) : Bool :=
  c == ' ' || c == '\t' || c == '\n' || c == '\r' || c == '\x0b' || c == '\x0c'

/-- ASCII lower-casing, modelling `re.IGNORECASE` comparison. -/
def lowerChar (c : Char) : Char :=
  if c.toNat ≥ 65 ∧ c.toNat ≤ 90 then Char.ofNat (c.toNat + 32) else c

/-- Word characters for the regex `\b` boundary (`[A-Za-z0-9_]`). -/
def isWordChar (c : Char) : Bool :=
  (65 ≤ c.toNat && c.toNat ≤ 90) || (97 ≤ c.toNat && c.toNat ≤ 122) ||
  (48 ≤ c.toNat && c.toNat ≤ 57) || c == '_'

theorem len_dropWhile_le (p : α → Bool) (l : List α) :
    (l.dropWhile p).length ≤ l.length := by
  induction l with
  | nil => simp [List.dropWhile]
  | cons c rest ih =>
    by_cases h : p c
    · rw [List.dropWhile_cons_of_pos h]; exact Nat.le_succ_of_le ih
    · rw [List.dropWhile_cons_of_neg h]

/-- `str.strip()` on a character list: drop whitespace from both ends. -/
def stripChars (l : List Char) : List Char :=
  ((l.dropWhile pyIsSpace).reverse.dropWhile pyIsSpace).reverse

/-- `str.strip()` on a `String`. -/
def pyStrip (s : String) : String := String.mk (stripChars s.data)

/-- `str.split()` with no separator, fuel-structured so that the kernel can
evaluate it (every step consumes at least one character, so fuel equal to
the list length always suffices). -/
def pySplitWsF : Nat → List Char → List (List Char)
  | 0, _ => []
  | fuel + 1, l =>
    match l with
    | [] => []
    | c :: rest =>
      if pyIsSpace c then pySplitWsF fuel rest
      else (c :: rest.takeWhile (fun d => !pyIsSpace d)) ::
        pySplitWsF fuel (rest.dropWhile (fun d => !pyIsSpace d))

/-- `str.split()` with no separator: the maximal runs of non-whitespace
characters (used for `word_count = len(text.split())`). -/
def pySplitWs (l : List Char) : List (List Char) := pySplitWsF l.length l

/-! ### The segmenter (`ThoughtProcessor._split_into_segments`)

`re.split(r'\n\s*\n', text)` splits at a newline followed by optional
whitespace followed by a newline; the regex `\s*` is greedy, so the
separator extends to the last newline of the whitespace run that follows
the first newline. -/

/-- Index of the last `'\n'` in a list, if any. -/
def lastNewlinePos : List Char → Option Nat
  | [] => none
  | c :: rest =>
    match lastNewlinePos rest with
    | some k => some (k + 1)
    | none => if c == '\n' then some 0 else none

/-- The scan for `re.split(r'\n\s*\n', text)`: `acc` holds the current part
reversed; on a separator the part is emitted and scanning resumes after the
separator's final newline.  Fuel-structured (every step consumes at least
one character); the fuel-exhausted result matches the end-of-input result,
and callers always supply fuel equal to the input length. -/
def splitBlankAuxF : Nat → List Char → List Char → List (List Char)
  | 0, acc, _ => [acc.reverse]
  | fuel + 1, acc, l =>
    match l with
    | [] => [acc.reverse]
    | c :: rest =>
      if c == '\n' then
        match lastNewlinePos (rest.takeWhile pyIsSpace) with
        | some k => acc.reverse :: splitBlankAuxF fuel [] (rest.drop (k + 1))
        | none => splitBlankAuxF fuel (c :: acc) rest
      else splitBlankAuxF fuel (c :: acc) rest

/-- `re.split(r'\n\s*\n', text)`. -/
def splitBlank (text : List Char) : List (List Char) :=
  splitBlankAuxF text.length [] text

/-- Sentence-ending characters of the lookbehind `(?<=[.!?])`. -/
def isSentEnd (c : Char) : Bool := c == '.' || c == '!' || c == '?'

/-- Whether the previous character (head of the reversed current part)
is a sentence end. -/
def headSentEnd : List Char → Bool
  | [] => false
  | p :: _ => isSentEnd p

/-- The scan for `re.split(r'(?<=[.!?])\s+', segment)`: a maximal whitespace
run whose preceding character is `.`, `!` or `?` separates parts.
Fuel-structured like `splitBlankAuxF`. -/
def splitSentAuxF : Nat → List Char → List Char → List (List Char)
  | 0, acc, _ => [acc.reverse]
  | fuel + 1, acc, l =>
    match l with
    | [] => [acc.reverse]
    | c :: rest =>
      if pyIsSpace c && headSentEnd acc then
        acc.reverse :: splitSentAuxF fuel [] (rest.dropWhile pyIsSpace)
      else splitSentAuxF fuel (c :: acc) rest

/-- `re.split(r'(?<=[.!?])\s+', segment)`. -/
def splitSent (seg : List Char) : List (List Char) :=
  splitSentAuxF seg.length [] seg

/-- `ThoughtProcessor._split_into_segments` on a character list: split on
blank lines, further split parts whose stripped length exceeds 500 at
sentence boundaries, then strip every piece and drop empty results. -/
def splitSegsCore (text : List Char) : List (List Char) :=
  let segments := splitBlank text
  let result := segments.flatMap fun seg =>
    if 500 < (stripChars seg).length then splitSent seg else [seg]
  (result.map stripChars).filter (fun s => !s.isEmpty)

/-- `ThoughtProcessor._split_into_segments`. -/
def split_into_segments (text : String) : List String :=
  (splitSegsCore text.data).map String.mk

/-! ### Regex model for the classifier

The privacy-indicator regexes of `ThoughtProcessor` use only literals,
`\s+`, ordered alternation and `(?i)`; the counting regexes additionally
use `\b` word boundaries.  `Pat` is exactly that fragment; `matchEnds`
returns every suffix remaining after a match starting at the head of the
input, which gives `re.search` existence semantics. -/

inductive Pat where
  | lit : List Char → Pat
  | ws : Pat
  | seq : Pat → Pat → Pat
  | alt : Pat → Pat → Pat

/-- Case-insensitive literal prefix test (`(?i)` semantics, ASCII). -/
def ciStarts (w s : List Char) : Bool :=
  decide ((s.take w.length).map lowerChar = w.map lowerChar)

/-- The suffixes left after consuming one or more whitespace characters
(the possible endings of a greedy-with-backtracking `\s+`). -/
def wsSuffixes : List Char → List (List Char)
  | [] => []
  | c :: rest => if pyIsSpace c then rest :: wsSuffixes rest else []

/-- All suffixes remaining after the pattern matches a prefix of `s`. -/
def matchEnds : Pat → List Char → List (List Char)
  | .lit w, s => if ciStarts w s then [s.drop w.length] else []
  | .ws, s => wsSuffixes s
  | .seq p q, s => (matchEnds p s).flatMap (matchEnds q)
  | .alt p q, s => matchEnds p s ++ matchEnds q s

/-- `re.search` existence: the pattern matches starting at some position. -/
def patSearch (p : Pat) : List Char → Bool
  | [] => !(matchEnds p []).isEmpty
  | c :: rest => !(matchEnds p (c :: rest)).isEmpty || patSearch p rest

/-- The apostrophe character (avoids a quote character in source literals). -/
def apos : Char := Char.ofNat 39

/-- A contraction literal `a ++ apostrophe ++ b`. -/
def cA (a b : String) : List Char := a.data ++ apos :: b.data

/-- Ordered alternation over a list of literals (the lists are never empty
in this development; the `[]` base case is an arbitrary never-used literal). -/
def oneOfL : List (List Char) → Pat
  | [] => .lit [Char.ofNat 1]
  | [w] => .lit w
  | w :: rest => .alt (.lit w) (oneOfL rest)

/-- Ordered alternation over string literals. -/
def oneOf (ws : List String) : Pat := oneOfL (ws.map String.data)

/-- `PRIVACY_INDICATORS[0]`: `(?i)(private|secret|confidential|personal|sensitive)`. -/
def pat1 : Pat := oneOf ["private", "secret", "confidential", "personal", "sensitive"]

/-- `PRIVACY_INDICATORS[1]`:
`(?i)(don't|do not|shouldn't|should not|wouldn't|would not)\s+(share|tell|reveal|disclose)`. -/
def pat2 : Pat :=
  .seq (oneOfL [cA "don" "t", "do not".data, cA "shouldn" "t", "should not".data,
                cA "wouldn" "t", "would not".data])
    (.seq .ws (oneOf ["share", "tell", "reveal", "disclose"]))

/-- `PRIVACY_INDICATORS[2]`: `(?i)(between|just|only)\s+(us|ourselves|me and you)`. -/
def pat3 : Pat :=
  .seq (oneOf ["between", "just", "only"])
    (.seq .ws (oneOf ["us", "ourselves", "me and you"]))

/-- `PRIVACY_INDICATORS[3]`: `(?i)keep\s+this\s+(to\s+yourself|private|secret|confidential)`. -/
def pat4 : Pat :=
  .seq (.lit "keep".data)
    (.seq .ws (.seq (.lit "this".data)
      (.seq .ws (.alt (.seq (.lit "to".data) (.seq .ws (.lit "yourself".data)))
                      (oneOf ["private", "secret", "confidential"])))))

/-- `PRIVACY_INDICATORS[4]`:
`(?i)(internal|introspective|inner)\s+(thought|reflection|monologue|dialogue)`. -/
def pat5 : Pat :=
  .seq (oneOf ["internal", "introspective", "inner"])
    (.seq .ws (oneOf ["thought", "reflection", "monologue", "dialogue"]))

/-- `PRIVACY_INDICATORS[5]`: `(?i)(nobody|no one)\s+should\s+(know|hear|see|read)`. -/
def pat6 : Pat :=
  .seq (oneOf ["nobody", "no one"])
    (.seq .ws (.seq (.lit "should".data)
      (.seq .ws (oneOf ["know", "hear", "see", "read"]))))

/-- `PRIVACY_INDICATORS[6]`: `(?i)if\s+I'm\s+being\s+honest`. -/
def pat7 : Pat :=
  .seq (.lit "if".data)
    (.seq .ws (.seq (.lit (cA "I" "m"))
      (.seq .ws (.seq (.lit "being".data) (.seq .ws (.lit "honest".data))))))

/-- `PRIVACY_INDICATORS[7]`:
`(?i)I\s+(wouldn't|won't|can't|cannot|don't)\s+(say|admit|acknowledge)\s+this\s+(publicly|openly)`. -/
def pat8 : Pat :=
  .seq (.lit "I".data)
    (.seq .ws (.seq (oneOfL [cA "wouldn" "t", cA "won" "t", cA "can" "t",
                             "cannot".data, cA "don" "t"])
      (.seq .ws (.seq (oneOf ["say", "admit", "acknowledge"])
        (.seq .ws (.seq (.lit "this".data)
          (.seq .ws (oneOf ["publicly", "openly"]))))))))

/-- `ThoughtProcessor.PRIVACY_INDICATORS`, compiled. -/
def privacy_patterns : List Pat := [pat1, pat2, pat3, pat4, pat5, pat6, pat7, pat8]

/-- Whether any compiled privacy pattern matches the segment
(the first loop of `_is_likely_private`). -/
def matchesAnyPrivacyPattern (s : String) : Bool :=
  privacy_patterns.any (fun p => patSearch p s.data)

/-! ### `re.findall(r'\b(w1|w2|...)\b', text, re.IGNORECASE)` counting -/

/-- Word-character status of an optional character (`none` = outside the
string, which is a non-word position for `\b`). -/
def wordness : Option Char → Bool
  | none => false
  | some c => isWordChar c

/-- A `\b` boundary lies between two adjacent positions iff exactly one
side is a word character. -/
def boundaryAt (prev cur : Option Char) : Bool := wordness prev != wordness cur

/-- Try the alternatives in regex order at the head of `s`; an alternative
succeeds when it is a case-insensitive prefix and a `\b` boundary follows
the matched text.  Returns the matched length. -/
def tryAlts (alts : List (List Char)) (s : List Char) : Option Nat :=
  match alts with
  | [] => none
  | a :: rest =>
    if ciStarts a s && boundaryAt ((s.take a.length).getLast?) ((s.drop a.length).head?) then
      some a.length
    else tryAlts rest s

/-- The scan of `re.findall` for a `\b(alt|...)\b` pattern: at each position
with a word boundary before it, try the alternatives in order; on a match
resume after the matched text (non-overlapping matches), else advance one
character.  `fuel` bounds the recursion and always starts at the list
length, which suffices because every step consumes at least one unit. -/
def countMatchesAux (alts : List (List Char)) : Nat → Option Char → List Char → Nat
  | 0, _, _ => 0
  | _ + 1, _, [] => 0
  | fuel + 1, prev, c :: rest =>
    if boundaryAt prev (some c) then
      match tryAlts alts (c :: rest) with
      | some k => 1 + countMatchesAux alts fuel ((List.take k (c :: rest)).getLast?)
                        (List.drop k (c :: rest))
      | none => countMatchesAux alts fuel (some c) rest
    else countMatchesAux alts fuel (some c) rest

/-- `len(re.findall(r'\b(...)\b', text, re.IGNORECASE))` for an ordered
alternative list. -/
def countMatches (alts : List String) (t : List Char) : Nat :=
  countMatchesAux (alts.map String.data) t.length none t

/-- `\b(I|me|my|mine|myself)\b`. -/
def firstPersonWords : List String := ["I", "me", "my", "mine", "myself"]

/-- `\b(think|feel|believe|wonder|question|doubt|reflect)\b`. -/
def thinkingVerbWords : List String :=
  ["think", "feel", "believe", "wonder", "question", "doubt", "reflect"]

/-- `\b(maybe|perhaps|possibly|might|could be|uncertain|unsure)\b`. -/
def uncertaintyWords : List String :=
  ["maybe", "perhaps", "possibly", "might", "could be", "uncertain", "unsure"]

/-- The four `sensitive_topics` patterns of `_calculate_sensitivity_score`. -/
def sensitiveTopicAlts : List (List String) :=
  [["controversial", "controversy", "contentious", "dispute", "disagreement"],
   ["personal", "private", "intimate", "secret"],
   ["worry", "concern", "afraid", "fear", "anxious", "anxiety"],
   ["critique", "criticism", "critical", "flaw", "weakness", "shortcoming"]]

/-- `\b(careful|cautious|warning|between us|not for|hesitant)\b`. -/
def cautionWords : List String :=
  ["careful", "cautious", "warning", "between us", "not for", "hesitant"]

/-! ### The scores and the classification decision -/

/-- `word_count = len(text.split())`. -/
def word_count (t : List Char) : Nat := (pySplitWs t).length

/-- `ThoughtProcessor._calculate_introspection_score`.  Python float
arithmetic is modelled by exact rationals (`0.3` is the scale factor). -/
def calculate_introspection_score (s : String) : ℚ :=
  let t := s.data
  let first_person := countMatches firstPersonWords t
  let thinking_verbs := countMatches thinkingVerbWords t
  let uncertainty := countMatches uncertaintyWords t
  if word_count t = 0 then 0
  else min 1 ((first_person + thinking_verbs + uncertainty : ℚ) /
              (word_count t * (3 / 10)))

/-- `ThoughtProcessor._calculate_sensitivity_score` (scale factor `0.25`,
cautionary phrases weighted twice). -/
def calculate_sensitivity_score (s : String) : ℚ :=
  let t := s.data
  let topic_mentions := (sensitiveTopicAlts.map (fun alts => countMatches alts t)).sum
  let caution_phrases := countMatches cautionWords t
  if word_count t = 0 then 0
  else min 1 ((topic_mentions + caution_phrases * 2 : ℚ) /
              (word_count t * (1 / 4)))

/-- `ThoughtProcessor._is_likely_private`: explicit indicator match first,
then introspection score `> 0.7`, then sensitivity score `> 0.8`. -/
def is_likely_private (s : String) : Bool :=
  if matchesAnyPrivacyPattern s then true
  else if calculate_introspection_score s > 7 / 10 then true
  else if calculate_sensitivity_score s > 8 / 10 then true
  else false

/-! ### Segmenter correctness (claim C4) -/

/-- Non-whitespace characters (the content the segmenter must preserve). -/
def nonWs (c : Char) : Bool := !pyIsSpace c

theorem dropWhile_head_not (p : α → Bool) (l : List α) (c : α) (t : List α)
    (h : List.dropWhile p l = c :: t) : ¬p c := by
  induction l with
  | nil => simp [List.dropWhile] at h
  | cons a rest ih =>
    by_cases ha : p a
    · rw [List.dropWhile_cons_of_pos ha] at h; exact ih h
    · rw [List.dropWhile_cons_of_neg ha] at h
      cases h; simpa using ha

theorem rdropWhile_append_rtakeWhile (p : α → Bool) (l : List α) :
    List.rdropWhile p l ++ List.rtakeWhile p l = l := by
  rw [List.rdropWhile, List.rtakeWhile, ← List.reverse_append,
    List.takeWhile_append_dropWhile, List.reverse_reverse]

theorem stripChars_eq (l : List Char) :
    stripChars l = List.rdropWhile pyIsSpace (List.dropWhile pyIsSpace l) := rfl

theorem stripChars_idem (l : List Char) : stripChars (stripChars l) = stripChars l := by
  have hdw : List.dropWhile pyIsSpace (stripChars l) = stripChars l := by
    rw [stripChars_eq]
    set B := List.dropWhile pyIsSpace l with hB
    cases hR : List.rdropWhile pyIsSpace B with
    | nil => simp
    | cons c t =>
      have hBeq : B = c :: (t ++ List.rtakeWhile pyIsSpace B) := by
        conv_lhs => rw [← rdropWhile_append_rtakeWhile pyIsSpace B, hR]
        simp
      have hc : ¬pyIsSpace c = true :=
        dropWhile_head_not pyIsSpace l c _ (hB.symm.trans hBeq)
      rw [List.dropWhile_cons_of_neg hc]
  rw [stripChars_eq (stripChars l), hdw, stripChars_eq l, List.rdropWhile_idempotent]

theorem filter_nonWs_dropWhile (l : List Char) :
    (List.dropWhile pyIsSpace l).filter nonWs = l.filter nonWs := by
  induction l with
  | nil => rfl
  | cons c rest ih =>
    by_cases h : pyIsSpace c
    · rw [List.dropWhile_cons_of_pos h, ih, List.filter_cons]
      simp [nonWs, h]
    · rw [List.dropWhile_cons_of_neg h]

theorem filter_nonWs_stripChars (l : List Char) :
    (stripChars l).filter nonWs = l.filter nonWs := by
  rw [stripChars_eq, List.rdropWhile, List.filter_reverse, filter_nonWs_dropWhile,
    List.filter_reverse, List.reverse_reverse, filter_nonWs_dropWhile]

theorem filter_nonWs_takeWhile (l : List Char) :
    (List.takeWhile pyIsSpace l).filter nonWs = [] := by
  rw [List.filter_eq_nil_iff]
  intro c hc
  have := List.mem_takeWhile_imp hc
  simp [nonWs, this]

theorem lastNewlinePos_lt (l : List Char) (k : Nat) (h : lastNewlinePos l = some k) :
    k < l.length := by
  induction l generalizing k with
  | nil => simp [lastNewlinePos] at h
  | cons c rest ih =>
    rw [lastNewlinePos] at h
    simp only [List.length_cons]
    cases hr : lastNewlinePos rest with
    | some j =>
      rw [hr] at h
      injection h with h
      have := ih j hr
      omega
    | none =>
      rw [hr] at h
      by_cases hc : (c == '\n') = true
      · rw [if_pos hc] at h
        injection h with h
        omega
      · rw [if_neg hc] at h
        exact absurd h (by simp)

theorem filter_nonWs_take_of_ws (l : List Char) (j : Nat)
    (h : j ≤ (List.takeWhile pyIsSpace l).length) :
    (l.take j).filter nonWs = [] := by
  have hsplit : l.take j = (List.takeWhile pyIsSpace l).take j := by
    conv_lhs => rw [← List.takeWhile_append_dropWhile (p := pyIsSpace) (l := l)]
    rw [List.take_append_of_le_length h]
  rw [hsplit, List.filter_eq_nil_iff]
  intro c hc
  have := List.mem_takeWhile_imp (List.mem_of_mem_take hc)
  simp [nonWs, this]

theorem splitBlankAuxF_filter_flatten (fuel : Nat) :
    ∀ (acc s : List Char), s.length ≤ fuel →
      (((splitBlankAuxF fuel acc s).map (List.filter nonWs)).flatten : List Char)
        = (acc.reverse ++ s).filter nonWs := by
  induction fuel with
  | zero =>
    intro acc s hs
    have : s = [] := List.length_eq_zero.mp (Nat.le_zero.mp hs)
    subst this
    simp [splitBlankAuxF]
  | succ fuel ih =>
    intro acc s hs
    cases s with
    | nil => simp [splitBlankAuxF]
    | cons c rest =>
      rw [splitBlankAuxF]
      simp only [List.length_cons, Nat.succ_le_succ_iff] at hs
      by_cases hc : (c == '\n') = true
      · simp only [hc, if_true]
        cases hk : lastNewlinePos (rest.takeWhile pyIsSpace) with
        | some k =>
          have hdrop : (rest.drop (k + 1)).length ≤ fuel :=
            Nat.le_trans (List.length_drop _ _ ▸ Nat.sub_le _ _) hs
          simp only [List.map_cons, List.flatten_cons, ih [] _ hdrop, List.filter_append]
          have hcn : c = '\n' := by simpa using hc
          have hkl : k + 1 ≤ (List.takeWhile pyIsSpace rest).length :=
            lastNewlinePos_lt _ k hk
          have hrest : rest.filter nonWs = (rest.drop (k + 1)).filter nonWs := by
            conv_lhs => rw [← List.take_append_drop (k + 1) rest]
            rw [List.filter_append, filter_nonWs_take_of_ws rest (k + 1) hkl,
              List.nil_append]
          rw [List.filter_cons]
          have hnc : ¬nonWs c = true := by simp [nonWs, hcn, pyIsSpace]
          simp [hnc, hrest]
        | none =>
          rw [ih (c :: acc) rest hs]
          simp
      · simp only [hc, if_neg, Bool.false_eq_true, ite_false]
        rw [ih (c :: acc) rest hs]
        simp

theorem splitSentAuxF_filter_flatten (fuel : Nat) :
    ∀ (acc s : List Char), s.length ≤ fuel →
      (((splitSentAuxF fuel acc s).map (List.filter nonWs)).flatten : List Char)
        = (acc.reverse ++ s).filter nonWs := by
  induction fuel with
  | zero =>
    intro acc s hs
    have : s = [] := List.length_eq_zero.mp (Nat.le_zero.mp hs)
    subst this
    simp [splitSentAuxF]
  | succ fuel ih =>
    intro acc s hs
    cases s with
    | nil => simp [splitSentAuxF]
    | cons c rest =>
      rw [splitSentAuxF]
      simp only [List.length_cons, Nat.succ_le_succ_iff] at hs
      by_cases hc : (pyIsSpace c && headSentEnd acc) = true
      · simp only [hc, if_true]
        have hdw : (List.dropWhile pyIsSpace rest).length ≤ fuel :=
          Nat.le_trans (len_dropWhile_le _ _) hs
        simp only [List.map_cons, List.flatten_cons, ih [] _ hdw, List.filter_append]
        have hcw : pyIsSpace c = true := by
          simp only [Bool.and_eq_true] at hc; exact hc.1
        have hrest : rest.filter nonWs = (List.dropWhile pyIsSpace rest).filter nonWs :=
          (filter_nonWs_dropWhile rest).symm
        rw [List.filter_cons]
        have hnc : ¬nonWs c = true := by simp [nonWs, hcw]
        simp [hnc, hrest]
      · simp only [hc, if_neg, Bool.false_eq_true, ite_false]
        rw [ih (c :: acc) rest hs]
        simp

theorem splitSegsCore_filter_flatten (t : List Char) :
    ((splitSegsCore t).map (List.filter nonWs)).flatten = t.filter nonWs := by
  rw [splitSegsCore]
  have h1 : ∀ parts : List (List Char),
      (((parts.map stripChars).filter (fun s => !s.isEmpty)).map (List.filter nonWs)).flatten
        = ((parts.map (List.filter nonWs)).flatten : List Char) := by
    intro parts
    induction parts with
    | nil => rfl
    | cons x rest ih =>
      simp only [List.map_cons, List.filter_cons, List.flatten_cons]
      by_cases hx : (stripChars x).isEmpty
      · have hxe : stripChars x = [] := by simpa [List.isEmpty_iff] using hx
        have hfx : (x.filter nonWs : List Char) = [] := by
          rw [← filter_nonWs_stripChars, hxe]; rfl
        simp [hx, hfx, ih]
      · simp [hx, ih, filter_nonWs_stripChars]
  rw [h1]
  have h2 : ∀ segs : List (List Char),
      (((segs.flatMap fun seg =>
          if 500 < (stripChars seg).length then splitSent seg else [seg]).map
            (List.filter nonWs)).flatten : List Char)
        = ((segs.map (List.filter nonWs)).flatten : List Char) := by
    intro segs
    induction segs with
    | nil => rfl
    | cons x rest ih =>
      rw [List.flatMap_cons, List.map_append, List.flatten_append, ih]
      by_cases hx : 500 < (stripChars x).length
      · simp only [hx, if_pos, ite_true]
        have := splitSentAuxF_filter_flatten x.length [] x (Nat.le_refl _)
        simp only [List.reverse_nil, List.nil_append] at this
        rw [splitSent, this]
        simp
      · simp only [hx, if_neg, ite_false]
        simp
  rw [h2]
  have h3 := splitBlankAuxF_filter_flatten t.length [] t (Nat.le_refl _)
  simp only [List.reverse_nil, List.nil_append] at h3
  rw [splitBlank]
  exact h3

theorem splitSegsCore_trimmed (t : List Char) :
    ∀ x ∈ splitSegsCore t, stripChars x = x ∧ x ≠ [] := by
  intro x hx
  rw [splitSegsCore] at hx
  rcases List.mem_filter.mp hx with ⟨hmem, hne⟩
  rcases List.mem_map.mp hmem with ⟨y, _, hy⟩
  constructor
  · rw [← hy, stripChars_idem]
  · intro hempty
    rw [hempty] at hne
    simp at hne

/-- Claim C4: for every input text, the segments produced by
`_split_into_segments`, concatenated in order with no separators, contain
exactly the non-whitespace characters of the original text in the original
order, and every emitted segment is trimmed (stripping is the identity on
it) and non-empty. -/
theorem split_into_segments_spec (text : String) :
    ((split_into_segments text).map String.data).flatten.filter nonWs
        = text.data.filter nonWs
      ∧ (split_into_segments text).all
          (fun s => decide (stripChars s.data = s.data) && !s.data.isEmpty) = true := by
  constructor
  · rw [split_into_segments, List.map_map]
    have : String.data ∘ String.mk = id := rfl
    rw [this, List.map_id, List.filter_flatten, splitSegsCore_filter_flatten]
  · rw [List.all_eq_true]
    intro s hs
    rcases List.mem_map.mp hs with ⟨x, hxmem, hxeq⟩
    have hx := splitSegsCore_trimmed text.data x hxmem
    subst hxeq
    simp only [Bool.and_eq_true, decide_eq_true_eq]
    exact ⟨hx.1, by simpa [List.isEmpty_iff] using hx.2⟩

/-! ### Classifier claims (C3, C6) -/

/-- Claim C6: for every segment, the introspection score is
`min(1, (first-person + cognition-verb + uncertainty matches) / (word_count * 0.3))`
with whitespace-delimited `word_count`, and `0` when there are no tokens. -/
theorem calculate_introspection_score_spec (s : String) :
    (word_count s.data = 0 → calculate_introspection_score s = 0)
    ∧ (word_count s.data ≠ 0 →
        calculate_introspection_score s =
          min 1 ((countMatches firstPersonWords s.data
                  + countMatches thinkingVerbWords s.data
                  + countMatches uncertaintyWords s.data : ℚ) /
                 (word_count s.data * (3 / 10)))) := by
  constructor
  · intro h; rw [calculate_introspection_score]; simp [h]
  · intro h; rw [calculate_introspection_score]; simp [h]

theorem calculate_introspection_score_spec_witness :
    word_count ("I think I wonder maybe perhaps").data ≠ 0 ∧
    calculate_introspection_score "I think I wonder maybe perhaps" =
      min 1 ((countMatches firstPersonWords ("I think I wonder maybe perhaps").data
              + countMatches thinkingVerbWords ("I think I wonder maybe perhaps").data
              + countMatches uncertaintyWords ("I think I wonder maybe perhaps").data : ℚ) /
             (word_count ("I think I wonder maybe perhaps").data * (3 / 10))) :=
  ⟨by decide, (calculate_introspection_score_spec "I think I wonder maybe perhaps").2 (by decide)⟩

/-- Claim C3: `_is_likely_private` is true iff an explicit privacy pattern
matches, or the introspection score exceeds `0.7`, or the sensitivity score
exceeds `0.8` (strict inequalities: a score exactly at its threshold does
not trigger). -/
theorem is_likely_private_spec (s : String) :
    (is_likely_private s = true ↔
      (matchesAnyPrivacyPattern s = true ∨ calculate_introspection_score s > 7 / 10 ∨
        calculate_sensitivity_score s > 8 / 10))
    ∧ (calculate_introspection_score s = 7 / 10 → calculate_sensitivity_score s = 8 / 10 →
        matchesAnyPrivacyPattern s = false → is_likely_private s = false) := by
  constructor
  · by_cases h1 : matchesAnyPrivacyPattern s = true
    · simp [is_likely_private, h1]
    · by_cases h2 : calculate_introspection_score s > 7 / 10
      · simp [is_likely_private, h1, h2]
      · by_cases h3 : calculate_sensitivity_score s > 8 / 10
        · simp [is_likely_private, h1, h2, h3]
        · simp [is_likely_private, h1, h2, h3]
  · intro h1 h2 h3
    rw [is_likely_private, h3]
    simp [h1, h2]

/-- A 100-token segment whose introspection score is exactly `0.7` and whose
sensitivity score is exactly `0.8` (21 cognition verbs, 10 cautionary words,
69 neutral fillers). -/
def boundaryText : String :=
  String.intercalate " "
    (List.replicate 21 "think" ++ List.replicate 10 "careful" ++ List.replicate 69 "sky")

set_option maxRecDepth 20000 in
theorem is_likely_private_spec_witness :
    calculate_introspection_score boundaryText = 7 / 10
    ∧ calculate_sensitivity_score boundaryText = 8 / 10
    ∧ matchesAnyPrivacyPattern boundaryText = false
    ∧ is_likely_private boundaryText = false := by
  have hfp : countMatches firstPersonWords boundaryText.data = 0 := by decide
  have htv : countMatches thinkingVerbWords boundaryText.data = 21 := by decide
  have hun : countMatches uncertaintyWords boundaryText.data = 0 := by decide
  have hwc : word_count boundaryText.data = 100 := by decide
  have htop : (sensitiveTopicAlts.map
      (fun alts => countMatches alts boundaryText.data)).sum = 0 := by decide
  have hcau : countMatches cautionWords boundaryText.data = 10 := by decide
  have h1 : calculate_introspection_score boundaryText = 7 / 10 := by
    simp only [calculate_introspection_score, hfp, htv, hun, hwc]
    rw [min_def]
    norm_num
  have h2 : calculate_sensitivity_score boundaryText = 8 / 10 := by
    simp only [calculate_sensitivity_score, htop, hcau, hwc]
    rw [min_def]
    norm_num
  have h3 : matchesAnyPrivacyPattern boundaryText = false := by decide
  exact ⟨h1, h2, h3, (is_likely_private_spec boundaryText).2 h1 h2 h3⟩

/-! ### Cipher (`EncryptionManager.encrypt`), claims C5, C8, C10

The AES-256 block permutation comes from the external `cryptography`
library; it is a parameter `E : List Nat → List Nat → List Nat` (key and
16-byte block to 16-byte block).  Everything the repository composes around
it — UTF-8 encoding of `str` input, PKCS#7 padding, CBC chaining, IV
prefixing — is modelled concretely.  `os.urandom(16)` becomes the explicit
`iv` argument. -/

/-- Bytewise xor (the CBC combining step). -/
def xorBytes (a b : List Nat) : List Nat := List.zipWith Nat.xor a b

/-- PKCS#7 padding to the AES block size: always appends `16 - n % 16`
copies of that value (a full block on exact block boundaries). -/
def pkcs7pad (data : List Nat) : List Nat :=
  data ++ List.replicate (16 - data.length % 16) (16 - data.length % 16)

/-- Split a byte string into 16-byte blocks, fuel-structured so the kernel
can evaluate it (each step consumes at least one byte). -/
def chunks16F : Nat → List Nat → List (List Nat)
  | 0, _ => []
  | _ + 1, [] => []
  | fuel + 1, x :: xs => ((x :: xs).take 16) :: chunks16F fuel ((x :: xs).drop 16)

/-- Split a byte string into 16-byte blocks. -/
def chunks16 (l : List Nat) : List (List Nat) := chunks16F l.length l

/-- CBC encryption of a block list under block function `Ek`, chaining from
`prev` (initially the IV): each ciphertext block is `Ek (prev xor block)`. -/
def cbcEncBlocks (Ek : List Nat → List Nat) : List Nat → List (List Nat) → List (List Nat)
  | _, [] => []
  | prev, b :: bs =>
    let c := Ek (xorBytes prev b)
    c :: cbcEncBlocks Ek c bs

/-- UTF-8 encoding of one scalar value (Python `str.encode("utf-8")`). -/
def utf8Char (c : Char) : List Nat :=
  let n := c.toNat
  if n < 128 then [n]
  else if n < 2048 then [192 + n / 64, 128 + n % 64]
  else if n < 65536 then [224 + n / 4096, 128 + (n / 64) % 64, 128 + n % 64]
  else [240 + n / 262144, 128 + (n / 4096) % 64, 128 + (n / 64) % 64, 128 + n % 64]

/-- `str.encode("utf-8")`. -/
def utf8Encode (s : String) : List Nat := (s.data.map utf8Char).flatten

/-- The byte path of `EncryptionManager.encrypt`: pad, CBC-encrypt, prepend
the IV. -/
def encryptBytes (E : List Nat → List Nat → List Nat) (key iv data : List Nat) : List Nat :=
  iv ++ (cbcEncBlocks (E key) iv (chunks16 (pkcs7pad data))).flatten

/-- `EncryptionManager.encrypt`: accepts `str` or `bytes`; a `str` is first
UTF-8 encoded (`data.encode("utf-8")`), then the byte path runs. -/
def encrypt (E : List Nat → List Nat → List Nat) (key iv : List Nat)
    (data : String ⊕ List Nat) : List Nat :=
  match data with
  | .inl s => encryptBytes E key iv (utf8Encode s)
  | .inr b => encryptBytes E key iv b

/-- CBC decryption of a block list under block function `Dk`. -/
def cbcDecBlocks (Dk : List Nat → List Nat) : List Nat → List (List Nat) → List (List Nat)
  | _, [] => []
  | prev, c :: cs => xorBytes prev (Dk c) :: cbcDecBlocks Dk c cs

/-- PKCS#7 unpadding: the last byte names the pad length, which must be
between 1 and 16 and repeated that many times at the end. -/
def pkcs7unpad (l : List Nat) : Option (List Nat) :=
  match l.getLast? with
  | none => none
  | some k =>
    if 1 ≤ k ∧ k ≤ 16 ∧ k ≤ l.length ∧ (l.drop (l.length - k)).all (fun b => b == k) then
      some (l.take (l.length - k))
    else none

/-- Modelled from the spec: the repository has no decrypt routine (spec 4.2:
"Decryption is logically symmetric (strip first 16 bytes as IV, decrypt
remainder, strip padding) though not exercised by the current surface").
`D` is the AES block decryption provided by the same external library. -/
def decrypt (D : List Nat → List Nat → List Nat) (key blob : List Nat) : Option (List Nat) :=
  pkcs7unpad ((cbcDecBlocks (D key) (blob.take 16) (chunks16 (blob.drop 16))).flatten)

/-! #### Cipher lemmas -/

theorem pkcs7pad_length (data : List Nat) :
    (pkcs7pad data).length = 16 * (data.length / 16 + 1) := by
  rw [pkcs7pad]
  simp only [List.length_append, List.length_replicate]
  omega

theorem xorBytes_length (a b : List Nat) :
    (xorBytes a b).length = min a.length b.length := by
  rw [xorBytes, List.length_zipWith]

theorem xorBytes_xorBytes (a b : List Nat) (h : a.length = b.length) :
    xorBytes a (xorBytes a b) = b := by
  induction a generalizing b with
  | nil =>
    cases b with
    | nil => rfl
    | cons y ys => simp at h
  | cons x xs ih =>
    cases b with
    | nil => simp at h
    | cons y ys =>
      simp only [List.length_cons, Nat.succ.injEq] at h
      simp only [xorBytes, List.zipWith_cons_cons]
      rw [← xorBytes, ← xorBytes, ih ys h]
      congr 1
      show x ^^^ (x ^^^ y) = y
      rw [← Nat.xor_assoc, Nat.xor_self, Nat.zero_xor]

theorem chunks16F_spec (fuel : Nat) :
    ∀ l : List Nat, l.length ≤ fuel → 16 ∣ l.length →
      (∀ c ∈ chunks16F fuel l, c.length = 16)
      ∧ (chunks16F fuel l).length = l.length / 16
      ∧ (chunks16F fuel l).flatten = l := by
  induction fuel with
  | zero =>
    intro l hl _
    have : l = [] := List.length_eq_zero.mp (Nat.le_zero.mp hl)
    subst this
    exact ⟨by intro c hc; simp [chunks16F] at hc, by simp [chunks16F], by simp [chunks16F]⟩
  | succ fuel ih =>
    intro l hl hdvd
    cases l with
    | nil =>
      exact ⟨by intro c hc; simp [chunks16F] at hc, by simp [chunks16F], by simp [chunks16F]⟩
    | cons x xs =>
      have h16 : 16 ≤ (x :: xs).length := by
        rcases hdvd with ⟨m, hm⟩
        rcases Nat.eq_zero_or_pos m with h0 | hpos
        · rw [h0, Nat.mul_zero] at hm; simp at hm
        · calc 16 = 16 * 1 := by norm_num
            _ ≤ 16 * m := Nat.mul_le_mul_left 16 hpos
            _ = (x :: xs).length := hm.symm
      have hdl : ((x :: xs).drop 16).length ≤ fuel := by
        rw [List.length_drop]
        simp only [List.length_cons] at hl ⊢
        omega
      have hddvd : 16 ∣ ((x :: xs).drop 16).length := by
        rw [List.length_drop]
        exact (Nat.dvd_sub' hdvd (Nat.dvd_refl 16))
      obtain ⟨ih1, ih2, ih3⟩ := ih ((x :: xs).drop 16) hdl hddvd
      rw [chunks16F]
      refine ⟨?_, ?_, ?_⟩
      · intro c hc
        rcases List.mem_cons.mp hc with hc | hc
        · rw [hc, List.length_take]
          omega
        · exact ih1 c hc
      · simp only [List.length_cons] at h16 hdvd ⊢
        rw [ih2, List.length_drop]
        simp only [List.length_cons]
        omega
      · rw [List.flatten_cons, ih3, List.take_append_drop]

theorem cbcEncBlocks_spec (Ek : List Nat → List Nat)
    (hE : ∀ b : List Nat, b.length = 16 → (Ek b).length = 16) :
    ∀ (blocks : List (List Nat)) (prev : List Nat), prev.length = 16 →
      (∀ b ∈ blocks, b.length = 16) →
      (∀ c ∈ cbcEncBlocks Ek prev blocks, c.length = 16)
      ∧ (cbcEncBlocks Ek prev blocks).length = blocks.length := by
  intro blocks
  induction blocks with
  | nil =>
    intro prev _ _
    exact ⟨by intro c hc; simp [cbcEncBlocks] at hc, by simp [cbcEncBlocks]⟩
  | cons b bs ih =>
    intro prev hprev hall
    have hb : b.length = 16 := hall b (List.mem_cons_self b bs)
    have hxor : (xorBytes prev b).length = 16 := by
      rw [xorBytes_length, hprev, hb]; simp
    have hc : (Ek (xorBytes prev b)).length = 16 := hE _ hxor
    obtain ⟨ih1, ih2⟩ := ih (Ek (xorBytes prev b)) hc
      (fun x hx => hall x (List.mem_cons_of_mem b hx))
    rw [cbcEncBlocks]
    refine ⟨?_, ?_⟩
    · intro c hmem
      rcases List.mem_cons.mp hmem with hmem | hmem
      · rw [hmem]; exact hc
      · exact ih1 c hmem
    · simp only [List.length_cons, ih2]

theorem flatten_length_of_blocks (L : List (List Nat)) (h : ∀ c ∈ L, c.length = 16) :
    L.flatten.length = 16 * L.length := by
  induction L with
  | nil => simp
  | cons c rest ih =>
    rw [List.flatten_cons, List.length_append, h c (List.mem_cons_self c rest),
      ih (fun x hx => h x (List.mem_cons_of_mem c hx))]
    simp only [List.length_cons]
    ring

theorem chunks16_flatten_blocks :
    ∀ (L : List (List Nat)) (fuel : Nat), (∀ c ∈ L, c.length = 16) →
      L.flatten.length ≤ fuel → chunks16F fuel L.flatten = L := by
  intro L
  induction L with
  | nil =>
    intro fuel _ _
    cases fuel <;> simp [chunks16F]
  | cons c rest ih =>
    intro fuel hall hfuel
    have hc : c.length = 16 := hall c (List.mem_cons_self c rest)
    have hflat : (c :: rest).flatten = c ++ rest.flatten := List.flatten_cons ..
    have hlen : (c ++ rest.flatten).length = 16 + rest.flatten.length := by
      rw [List.length_append, hc]
    cases fuel with
    | zero =>
      rw [hflat, hlen] at hfuel
      omega
    | succ fuel =>
      rw [hflat]
      have hnonempty : c ++ rest.flatten ≠ [] := by
        intro habs
        have := congrArg List.length habs
        rw [hlen] at this
        simp at this
      rcases hcc : c ++ rest.flatten with _ | ⟨y, ys⟩
      · exact absurd hcc hnonempty
      · rw [chunks16F, ← hcc]
        have htake : (c ++ rest.flatten).take 16 = c := by
          rw [← hc, List.take_left]
        have hdrop : (c ++ rest.flatten).drop 16 = rest.flatten := by
          rw [← hc, List.drop_left]
        rw [htake, hdrop]
        congr 1
        apply ih fuel (fun x hx => hall x (List.mem_cons_of_mem c hx))
        rw [hflat, hlen] at hfuel
        omega

theorem cbcDec_cbcEnc (Ek Dk : List Nat → List Nat)
    (hE : ∀ b : List Nat, b.length = 16 → (Ek b).length = 16)
    (hD : ∀ b : List Nat, b.length = 16 → Dk (Ek b) = b) :
    ∀ (blocks : List (List Nat)) (prev : List Nat), prev.length = 16 →
      (∀ b ∈ blocks, b.length = 16) →
      cbcDecBlocks Dk prev (cbcEncBlocks Ek prev blocks) = blocks := by
  intro blocks
  induction blocks with
  | nil => intro prev _ _; rfl
  | cons b bs ih =>
    intro prev hprev hall
    have hb : b.length = 16 := hall b (List.mem_cons_self b bs)
    have hxor : (xorBytes prev b).length = 16 := by
      rw [xorBytes_length, hprev, hb]; simp
    rw [cbcEncBlocks, cbcDecBlocks]
    rw [hD _ hxor, xorBytes_xorBytes prev b (hprev.trans hb.symm)]
    congr 1
    exact ih (Ek (xorBytes prev b)) (hE _ hxor)
      (fun x hx => hall x (List.mem_cons_of_mem b hx))

theorem replicate_getLast (k a : Nat) (h : 1 ≤ k) :
    (List.replicate k a).getLast? = some a := by
  rcases Nat.exists_eq_add_of_le h with ⟨j, hj⟩
  rw [hj, show 1 + j = j + 1 by omega, List.replicate_succ', List.getLast?_concat]

theorem pkcs7unpad_pad (data : List Nat) : pkcs7unpad (pkcs7pad data) = some data := by
  have hmod : data.length % 16 < 16 := Nat.mod_lt _ (by norm_num)
  have hk1 : 1 ≤ 16 - data.length % 16 := by omega
  have hlen : (pkcs7pad data).length = data.length + (16 - data.length % 16) := by
    rw [pkcs7pad, List.length_append, List.length_replicate]
  have hlast : (pkcs7pad data).getLast? = some (16 - data.length % 16) := by
    rw [pkcs7pad, List.getLast?_append_of_ne_nil, replicate_getLast _ _ hk1]
    intro habs
    have := congrArg List.length habs
    rw [List.length_replicate] at this
    simp at this
    omega
  have hdrop : (pkcs7pad data).drop ((pkcs7pad data).length - (16 - data.length % 16))
      = List.replicate (16 - data.length % 16) (16 - data.length % 16) := by
    rw [hlen, pkcs7pad, Nat.add_sub_cancel, List.drop_left]
  have htake : (pkcs7pad data).take ((pkcs7pad data).length - (16 - data.length % 16))
      = data := by
    rw [hlen, pkcs7pad, Nat.add_sub_cancel, List.take_left]
  have hcond : 1 ≤ 16 - data.length % 16 ∧ 16 - data.length % 16 ≤ 16
      ∧ 16 - data.length % 16 ≤ (pkcs7pad data).length
      ∧ ((pkcs7pad data).drop ((pkcs7pad data).length - (16 - data.length % 16))).all
          (fun b => b == (16 - data.length % 16)) := by
    refine ⟨hk1, by omega, by omega, ?_⟩
    rw [hdrop]
    simp
  simp only [pkcs7unpad, hlast]
  rw [if_pos hcond, htake]

/-- Claim C5: `encrypt` returns the IV followed by the CBC encryption of the
PKCS#7-padded plaintext, and the blob length is `16 + 16 * (n / 16 + 1)` for
an `n`-byte plaintext — a multiple of 16 and at least 32.  `E` is the AES
block permutation of the external library (it maps 16-byte blocks to
16-byte blocks, hypothesis `hE`), and the IV is 16 bytes. -/
theorem encrypt_blob_shape (E : List Nat → List Nat → List Nat) (key iv data : List Nat)
    (hE : ∀ b : List Nat, b.length = 16 → (E key b).length = 16)
    (hiv : iv.length = 16) :
    encryptBytes E key iv data
        = iv ++ (cbcEncBlocks (E key) iv (chunks16 (pkcs7pad data))).flatten
      ∧ (encryptBytes E key iv data).length = 16 + 16 * (data.length / 16 + 1)
      ∧ 16 ∣ (encryptBytes E key iv data).length
      ∧ 32 ≤ (encryptBytes E key iv data).length := by
  have hdvd : 16 ∣ (pkcs7pad data).length := by
    rw [pkcs7pad_length]; exact Dvd.intro _ rfl
  obtain ⟨hch1, hch2, _⟩ :=
    chunks16F_spec (pkcs7pad data).length (pkcs7pad data) (Nat.le_refl _) hdvd
  obtain ⟨hcb1, hcb2⟩ := cbcEncBlocks_spec (E key) hE (chunks16 (pkcs7pad data)) iv hiv hch1
  have hch2' : (chunks16 (pkcs7pad data)).length = (pkcs7pad data).length / 16 := hch2
  have hflat : (cbcEncBlocks (E key) iv (chunks16 (pkcs7pad data))).flatten.length
      = 16 * (data.length / 16 + 1) := by
    rw [flatten_length_of_blocks _ hcb1, hcb2, hch2', pkcs7pad_length]
    omega
  have hlen : (encryptBytes E key iv data).length = 16 + 16 * (data.length / 16 + 1) := by
    rw [encryptBytes, List.length_append, hiv, hflat]
  refine ⟨rfl, hlen, ?_, ?_⟩
  · rw [hlen]; omega
  · rw [hlen]; omega

theorem encrypt_blob_shape_witness :
    (encryptBytes (fun _ b => b) [] (List.replicate 16 0) [7, 7, 7]).length
        = 16 + 16 * (3 / 16 + 1)
    ∧ 32 ≤ (encryptBytes (fun _ b => b) [] (List.replicate 16 0) [7, 7, 7]).length := by
  have h := encrypt_blob_shape (fun _ b => b) [] (List.replicate 16 0) [7, 7, 7]
    (fun b hb => hb) (by decide)
  exact ⟨h.2.1, h.2.2.2⟩

/-- Claim C8 (decrypt modelled from the spec): for every key, IV and byte
string `p` — including the empty string and exact multiples of the block
size — decrypting the encryption of `p` gives back `p`, provided the block
functions are mutually inverse length-preserving 16-byte block maps, as AES
encryption and decryption under one key are. -/
theorem encrypt_decrypt_roundtrip (E D : List Nat → List Nat → List Nat)
    (key iv p : List Nat)
    (hE : ∀ b : List Nat, b.length = 16 → (E key b).length = 16)
    (hD : ∀ b : List Nat, b.length = 16 → D key (E key b) = b)
    (hiv : iv.length = 16) :
    decrypt D key (encryptBytes E key iv p) = some p := by
  have hdvd : 16 ∣ (pkcs7pad p).length := by
    rw [pkcs7pad_length]; exact Dvd.intro _ rfl
  obtain ⟨hch1, _, hch3⟩ :=
    chunks16F_spec (pkcs7pad p).length (pkcs7pad p) (Nat.le_refl _) hdvd
  obtain ⟨hcb1, _⟩ := cbcEncBlocks_spec (E key) hE (chunks16 (pkcs7pad p)) iv hiv hch1
  rw [decrypt, encryptBytes]
  have htake : (iv ++ (cbcEncBlocks (E key) iv (chunks16 (pkcs7pad p))).flatten).take 16
      = iv := by
    rw [← hiv, List.take_left]
  have hdrop : (iv ++ (cbcEncBlocks (E key) iv (chunks16 (pkcs7pad p))).flatten).drop 16
      = (cbcEncBlocks (E key) iv (chunks16 (pkcs7pad p))).flatten := by
    rw [← hiv, List.drop_left]
  rw [htake, hdrop]
  have hch1' : ∀ c ∈ chunks16 (pkcs7pad p), c.length = 16 := hch1
  have hch3' : (chunks16 (pkcs7pad p)).flatten = pkcs7pad p := hch3
  have hre : chunks16 ((cbcEncBlocks (E key) iv (chunks16 (pkcs7pad p))).flatten)
      = cbcEncBlocks (E key) iv (chunks16 (pkcs7pad p)) :=
    chunks16_flatten_blocks _ _ hcb1 (Nat.le_refl _)
  rw [hre]
  rw [cbcDec_cbcEnc (E key) (D key) hE hD (chunks16 (pkcs7pad p)) iv hiv hch1']
  rw [hch3']
  exact pkcs7unpad_pad p

theorem encrypt_decrypt_roundtrip_witness :
    decrypt (fun _ c => c) [] (encryptBytes (fun _ b => b) [] (List.replicate 16 0) [])
        = some []
    ∧ decrypt (fun _ c => c) []
        (encryptBytes (fun _ b => b) [] (List.replicate 16 0) (List.replicate 16 9))
        = some (List.replicate 16 9) :=
  ⟨encrypt_decrypt_roundtrip (fun _ b => b) (fun _ c => c) [] (List.replicate 16 0) []
      (fun b hb => hb) (fun b _ => rfl) (by decide),
   encrypt_decrypt_roundtrip (fun _ b => b) (fun _ c => c) [] (List.replicate 16 0)
      (List.replicate 16 9) (fun b hb => hb) (fun b _ => rfl) (by decide)⟩

/-- Claim C10: `encrypt` is total over text input and, under the same IV,
encrypting a string equals encrypting its UTF-8 byte encoding (the
`isinstance(data, str)` branch); the orchestrator passes private segments
to `encrypt` as strings (`Sum.inl`). -/
theorem encrypt_str_eq_bytes (E : List Nat → List Nat → List Nat)
    (key iv : List Nat) (s : String) :
    encrypt E key iv (Sum.inl s) = encrypt E key iv (Sum.inr (utf8Encode s)) := rfl

/-! ### Store (`StorageManager`), claim C9

The file system is an association list from paths to byte strings; writing
replaces any earlier entry for the same path (Python `open(..., 'wb')`
silently truncates and overwrites).  `datetime.now()` becomes an explicit
`PyDateTime` argument; `strftime("%Y%m%d%H%M%S")` zero-pads each component,
which is faithful for the ranges `datetime` produces (month, day, hour,
minute, second below 100; the theorem restricts the year to four digits,
1000–9999, where `%Y` is four characters). -/

structure PyDateTime where
  year : Nat
  month : Nat
  day : Nat
  hour : Nat
  minute : Nat
  second : Nat

/-- The decimal digit character for `n % 10`. -/
def digitChar (n : Nat) : Char := Char.ofNat (48 + n % 10)

/-- Two-digit zero-padded field (`%m`, `%d`, `%H`, `%M`, `%S`). -/
def pad2 (n : Nat) : List Char := [digitChar ((n / 10) % 10), digitChar (n % 10)]

/-- Four-digit year field (`%Y` for years 1000–9999). -/
def pad4 (n : Nat) : List Char :=
  [digitChar ((n / 1000) % 10), digitChar ((n / 100) % 10),
   digitChar ((n / 10) % 10), digitChar (n % 10)]

/-- `datetime.now().strftime("%Y%m%d%H%M%S")`. -/
def fmtTimestamp (t : PyDateTime) : String :=
  String.mk (pad4 t.year ++ pad2 t.month ++ pad2 t.day
    ++ pad2 t.hour ++ pad2 t.minute ++ pad2 t.second)

/-- A file system: association list from paths to raw bytes. -/
abbrev FileSystem := List (String × List Nat)

/-- Write raw bytes to a path, silently overwriting an existing file. -/
def fsWrite (fs : FileSystem) (p : String) (content : List Nat) : FileSystem :=
  (p, content) :: fs.filter (fun e => !(e.1 == p))

/-- Read the bytes stored at a path. -/
def fsLookup (fs : FileSystem) (p : String) : Option (List Nat) :=
  (fs.find? (fun e => e.1 == p)).map (fun e => e.2)

/-- `os.path.join(PRIVATE_DIR, f"private_thought_{timestamp}.enc")`. -/
def save_path (t : PyDateTime) : String :=
  "private/" ++ ("private_thought_" ++ (fmtTimestamp t ++ ".enc"))

/-- `StorageManager.save_encrypted_thought`: write the blob's raw bytes to
the timestamp-named path and return the path. -/
def save_encrypted_thought (fs : FileSystem) (t : PyDateTime) (blob : List Nat) :
    String × FileSystem :=
  (save_path t, fsWrite fs (save_path t) blob)

/-- Boolean string prefix test (over the character lists). -/
def strStartsWith (pre s : String) : Bool :=
  decide (s.data.take pre.data.length = pre.data)

/-- Boolean string suffix test (over the character lists). -/
def strEndsWith (suf s : String) : Bool :=
  decide (s.data.drop (s.data.length - suf.data.length) = suf.data)

/-- `StorageManager.get_saved_files`: the paths in the private directory
matching `*.enc` (the model keeps every path flat inside one directory). -/
def get_saved_files (fs : FileSystem) : List String :=
  (fs.map (fun e => e.1)).filter (fun p => strStartsWith "private/" p && strEndsWith ".enc" p)

theorem strStartsWith_append (pre rest : String) :
    strStartsWith pre (pre ++ rest) = true := by
  rw [strStartsWith, decide_eq_true_eq, String.data_append, List.take_left]

theorem strEndsWith_append (x suf : String) :
    strEndsWith suf (x ++ suf) = true := by
  rw [strEndsWith, decide_eq_true_eq, String.data_append, List.length_append,
    Nat.add_sub_cancel, List.drop_left]

theorem digitChar_isDigit (n : Nat) : (digitChar n).isDigit = true := by
  have h10 : n % 10 < 10 := Nat.mod_lt _ (by norm_num)
  rw [digitChar]
  interval_cases h : n % 10 <;> decide

theorem pad2_all_digits (n : Nat) : ∀ c ∈ pad2 n, c.isDigit = true := by
  intro c hc
  simp only [pad2, List.mem_cons, List.not_mem_nil, or_false] at hc
  rcases hc with h | h <;> (rw [h]; exact digitChar_isDigit _)

theorem pad4_all_digits (n : Nat) : ∀ c ∈ pad4 n, c.isDigit = true := by
  intro c hc
  simp only [pad4, List.mem_cons, List.not_mem_nil, or_false] at hc
  rcases hc with h | h | h | h <;> (rw [h]; exact digitChar_isDigit _)

theorem fmtTimestamp_digits (t : PyDateTime) :
    (fmtTimestamp t).length = 14 ∧ (fmtTimestamp t).data.all Char.isDigit = true := by
  constructor
  · rfl
  · rw [List.all_eq_true]
    intro c hc
    have hmem : c ∈ pad4 t.year ++ pad2 t.month ++ pad2 t.day
        ++ pad2 t.hour ++ pad2 t.minute ++ pad2 t.second := hc
    simp only [List.mem_append] at hmem
    rcases hmem with ((((h | h) | h) | h) | h) | h
    · exact pad4_all_digits _ _ h
    · exact pad2_all_digits _ _ h
    · exact pad2_all_digits _ _ h
    · exact pad2_all_digits _ _ h
    · exact pad2_all_digits _ _ h
    · exact pad2_all_digits _ _ h

/-- Claim C9: `save_encrypted_thought` writes the blob's raw bytes unchanged
to `private/private_thought_<14-digit-YYYYMMDDHHMMSS>.enc` (overwriting any
existing file of that name), returns that path, and an immediately
following `get_saved_files` enumeration includes the returned path.  The
timestamp ranges are those `datetime.now()` can produce with a four-digit
year. -/
theorem save_then_list_spec (fs : FileSystem) (blob : List Nat) (t : PyDateTime)
    (hy1 : 1000 ≤ t.year) (hy2 : t.year ≤ 9999) (hmo : t.month ≤ 99) (hd : t.day ≤ 99)
    (hh : t.hour ≤ 99) (hmi : t.minute ≤ 99) (hs : t.second ≤ 99) :
    fsLookup (save_encrypted_thought fs t blob).2 (save_encrypted_thought fs t blob).1
        = some blob
      ∧ (save_encrypted_thought fs t blob).1
          = "private/private_thought_" ++ fmtTimestamp t ++ ".enc"
      ∧ (fmtTimestamp t).length = 14
      ∧ (fmtTimestamp t).data.all Char.isDigit = true
      ∧ (save_encrypted_thought fs t blob).1
          ∈ get_saved_files (save_encrypted_thought fs t blob).2 := by
  obtain ⟨hlen14, hdigits⟩ := fmtTimestamp_digits t
  refine ⟨?_, ?_, hlen14, hdigits, ?_⟩
  · rw [save_encrypted_thought, fsWrite, fsLookup]
    simp [List.find?]
  · rw [save_encrypted_thought, save_path]
    rw [← String.append_assoc, ← String.append_assoc]
    rfl
  · rw [save_encrypted_thought, get_saved_files, fsWrite]
    simp only [List.map_cons, List.filter_cons]
    have h1 : strStartsWith "private/" (save_path t) = true := by
      rw [save_path]; exact strStartsWith_append _ _
    have h2 : strEndsWith ".enc" (save_path t) = true := by
      rw [save_path, ← String.append_assoc, ← String.append_assoc]
      exact strEndsWith_append _ _
    rw [h1, h2]
    simp

theorem save_then_list_spec_witness :
    (save_encrypted_thought [] ⟨2024, 3, 9, 7, 30, 15⟩ [1, 2, 3]).1
        = "private/private_thought_" ++ fmtTimestamp ⟨2024, 3, 9, 7, 30, 15⟩ ++ ".enc"
      ∧ fsLookup (save_encrypted_thought [] ⟨2024, 3, 9, 7, 30, 15⟩ [1, 2, 3]).2
          (save_encrypted_thought [] ⟨2024, 3, 9, 7, 30, 15⟩ [1, 2, 3]).1 = some [1, 2, 3] := by
  have h := save_then_list_spec [] [1, 2, 3] ⟨2024, 3, 9, 7, 30, 15⟩
    (by decide) (by decide) (by decide) (by decide) (by decide) (by decide) (by decide)
  exact ⟨h.2.1, h.1⟩

/-! ### Orchestrator (`ThoughtProcessor.process_output`,
`SecretAgent.process_message`), claims C2 and C7

`SecretAgent` holds a `private_thought_count` counter and the storage
state; both are explicit in `AgentState`.  The fresh IV of each
`encrypt` call and the wall clock of each save are modelled as streams
indexed by the counter value at that thought (`ivs`, `clock` for the
filename, `stamps` for the metadata's `time.time()` value). -/

/-- A Thought Metadata record: exactly the five fields the agent emits
(`id`, `timestamp`, `filepath`, `size_bytes`, `encrypted`); the record
type has no field for the segment text or the key. -/
structure ThoughtMeta where
  id : Nat
  timestamp : ℚ
  filepath : String
  size_bytes : Nat
  encrypted : Bool

/-- The classification loop of `process_output`: route each segment into
the public or the private list, preserving order. -/
def classifySegs : List String → List String × List String
  | [] => ([], [])
  | s :: rest =>
    let pr := classifySegs rest
    if is_likely_private s then (pr.1, s :: pr.2) else (s :: pr.1, pr.2)

/-- `ThoughtProcessor.process_output`: segment, classify, rejoin the public
segments with single spaces, return the private segments. -/
def process_output (text : String) : String × List String :=
  let segments := split_into_segments text
  let pr := classifySegs segments
  (String.intercalate " " pr.1, pr.2)

/-- The agent's mutable state: the `private_thought_count` counter and the
store's file system. -/
structure AgentState where
  counter : Nat
  fs : FileSystem

/-- The storage loop of `process_message`: encrypt each private thought
(as a string), save the blob, emit one metadata record, increment the
counter. -/
def storeLoop (E : List Nat → List Nat → List Nat) (key : List Nat)
    (ivs : Nat → List Nat) (clock : Nat → PyDateTime) (stamps : Nat → ℚ) :
    AgentState → List String → List ThoughtMeta × AgentState
  | st, [] => ([], st)
  | st, thought :: rest =>
    let blob := encrypt E key (ivs st.counter) (Sum.inl thought)
    let saved := save_encrypted_thought st.fs (clock st.counter) blob
    let meta : ThoughtMeta := ⟨st.counter, stamps st.counter, saved.1, blob.length, true⟩
    let tail := storeLoop E key ivs clock stamps ⟨st.counter + 1, saved.2⟩ rest
    (meta :: tail.1, tail.2)

/-- `SecretAgent.process_message`. -/
def process_message (E : List Nat → List Nat → List Nat) (key : List Nat)
    (ivs : Nat → List Nat) (clock : Nat → PyDateTime) (stamps : Nat → ℚ)
    (st : AgentState) (message : String) : String × List ThoughtMeta × AgentState :=
  let pr := process_output message
  let res := storeLoop E key ivs clock stamps st pr.2
  (pr.1, res.1, res.2)

/-- The segments the classifier deems public, in original order. -/
def publicSegments (text : String) : List String :=
  (split_into_segments text).filter (fun s => !is_likely_private s)

/-- The segments the classifier deems private, in original order. -/
def privateSegments (text : String) : List String :=
  (split_into_segments text).filter (fun s => is_likely_private s)

/-- The blob stored for the private thought with id `i`. -/
def blobFor (E : List Nat → List Nat → List Nat) (key : List Nat)
    (ivs : Nat → List Nat) (i : Nat) (t : String) : List Nat :=
  encrypt E key (ivs i) (Sum.inl t)

/-- The metadata record emitted for the private thought with id `i`: the id
itself, the capture timestamp, the storage path (a function of the clock
alone), the blob's byte length, and `encrypted = true`. -/
def metaFor (E : List Nat → List Nat → List Nat) (key : List Nat)
    (ivs : Nat → List Nat) (clock : Nat → PyDateTime) (stamps : Nat → ℚ)
    (i : Nat) (t : String) : ThoughtMeta :=
  ⟨i, stamps i, save_path (clock i), (blobFor E key ivs i t).length, true⟩

/-- The file-system effect of storing a run of private thoughts starting at
counter value `i`: one write per thought. -/
def saveSeq (E : List Nat → List Nat → List Nat) (key : List Nat)
    (ivs : Nat → List Nat) (clock : Nat → PyDateTime) :
    FileSystem → Nat → List String → FileSystem
  | fs, _, [] => fs
  | fs, i, t :: ts =>
    saveSeq E key ivs clock (fsWrite fs (save_path (clock i)) (blobFor E key ivs i t)) (i + 1) ts

theorem classifySegs_eq (l : List String) :
    classifySegs l = (l.filter (fun s => !is_likely_private s),
                      l.filter (fun s => is_likely_private s)) := by
  induction l with
  | nil => rfl
  | cons s rest ih =>
    rw [classifySegs, ih]
    by_cases h : is_likely_private s
    · simp [h, List.filter_cons]
    · simp [h, List.filter_cons]

theorem process_output_eq (text : String) :
    process_output text
      = (String.intercalate " " (publicSegments text), privateSegments text) := by
  rw [process_output, classifySegs_eq]
  rfl

theorem storeLoop_eq (E : List Nat → List Nat → List Nat) (key : List Nat)
    (ivs : Nat → List Nat) (clock : Nat → PyDateTime) (stamps : Nat → ℚ) :
    ∀ (ts : List String) (counter : Nat) (fs : FileSystem),
      storeLoop E key ivs clock stamps ⟨counter, fs⟩ ts =
        ((List.enumFrom counter ts).map
            (fun p => metaFor E key ivs clock stamps p.1 p.2),
         ⟨counter + ts.length, saveSeq E key ivs clock fs counter ts⟩) := by
  intro ts
  induction ts with
  | nil => intro counter fs; simp [storeLoop, saveSeq, List.enumFrom]
  | cons t rest ih =>
    intro counter fs
    rw [storeLoop]
    simp only [ih (counter + 1) _]
    refine Prod.ext ?_ ?_
    · simp only [List.enumFrom, List.map_cons]
      rfl
    · show (⟨counter + 1 + rest.length, _⟩ : AgentState) = ⟨counter + (rest.length + 1), _⟩
      have : counter + 1 + rest.length = counter + (rest.length + 1) := by omega
      rw [this]
      rfl

/-- Claim C2: `process_message` returns the public segments joined with
single spaces in original order; exactly the private segments, in order,
are each encrypted and saved with one metadata record each; and a text with
zero private segments produces empty metadata and leaves the file system
unchanged. -/
theorem process_message_spec (E : List Nat → List Nat → List Nat) (key : List Nat)
    (ivs : Nat → List Nat) (clock : Nat → PyDateTime) (stamps : Nat → ℚ)
    (st : AgentState) (msg : String) :
    process_message E key ivs clock stamps st msg =
      (String.intercalate " " (publicSegments msg),
       (List.enumFrom st.counter (privateSegments msg)).map
          (fun p => metaFor E key ivs clock stamps p.1 p.2),
       ⟨st.counter + (privateSegments msg).length,
        saveSeq E key ivs clock st.fs st.counter (privateSegments msg)⟩)
    ∧ (privateSegments msg = [] →
        (process_message E key ivs clock stamps st msg).2.1 = []
        ∧ (process_message E key ivs clock stamps st msg).2.2.fs = st.fs) := by
  have hmain : process_message E key ivs clock stamps st msg =
      (String.intercalate " " (publicSegments msg),
       (List.enumFrom st.counter (privateSegments msg)).map
          (fun p => metaFor E key ivs clock stamps p.1 p.2),
       ⟨st.counter + (privateSegments msg).length,
        saveSeq E key ivs clock st.fs st.counter (privateSegments msg)⟩) := by
    rw [process_message, process_output_eq]
    have hst : st = ⟨st.counter, st.fs⟩ := rfl
    rw [hst, storeLoop_eq]
  refine ⟨hmain, fun hempty => ?_⟩
  rw [hmain, hempty]
  exact ⟨rfl, rfl⟩

/-- Running a sequence of messages through one agent instance. -/
def run_messages (E : List Nat → List Nat → List Nat) (key : List Nat)
    (ivs : Nat → List Nat) (clock : Nat → PyDateTime) (stamps : Nat → ℚ) :
    AgentState → List String → List ThoughtMeta × AgentState
  | st, [] => ([], st)
  | st, m :: ms =>
    let r := process_message E key ivs clock stamps st m
    let rest := run_messages E key ivs clock stamps r.2.2 ms
    (r.2.1 ++ rest.1, rest.2)

/-- All private segments found across a message sequence, in order. -/
def allPrivates (msgs : List String) : List String := msgs.flatMap privateSegments

theorem run_messages_eq (E : List Nat → List Nat → List Nat) (key : List Nat)
    (ivs : Nat → List Nat) (clock : Nat → PyDateTime) (stamps : Nat → ℚ) :
    ∀ (msgs : List String) (counter : Nat) (fs : FileSystem),
      run_messages E key ivs clock stamps ⟨counter, fs⟩ msgs =
        ((List.enumFrom counter (allPrivates msgs)).map
            (fun p => metaFor E key ivs clock stamps p.1 p.2),
         ⟨counter + (allPrivates msgs).length,
          saveSeq E key ivs clock fs counter (allPrivates msgs)⟩) := by
  intro msgs
  induction msgs with
  | nil => intro counter fs; simp [run_messages, allPrivates, saveSeq, List.enumFrom]
  | cons m ms ih =>
    intro counter fs
    rw [run_messages]
    simp only [process_message, process_output_eq]
    rw [show (⟨counter, fs⟩ : AgentState) = ⟨counter, fs⟩ from rfl]
    rw [storeLoop_eq]
    simp only
    rw [ih (counter + (privateSegments m).length) _]
    have hall : allPrivates (m :: ms) = privateSegments m ++ allPrivates ms := by
      rw [allPrivates, List.flatMap_cons, allPrivates]
    refine Prod.ext ?_ ?_
    · simp only [hall, List.enumFrom_append, List.map_append]
    · show (⟨counter + (privateSegments m).length + (allPrivates ms).length, _⟩ : AgentState)
          = ⟨counter + (allPrivates (m :: ms)).length, _⟩
      have h1 : counter + (privateSegments m).length + (allPrivates ms).length
          = counter + (allPrivates (m :: ms)).length := by
        rw [hall, List.length_append]; omega
      have h2 : saveSeq E key ivs clock
            (saveSeq E key ivs clock fs counter (privateSegments m))
            (counter + (privateSegments m).length) (allPrivates ms)
          = saveSeq E key ivs clock fs counter (allPrivates (m :: ms)) := by
        rw [hall]
        clear h1 hall ih
        generalize privateSegments m = xs
        generalize allPrivates ms = ys
        induction xs generalizing counter fs with
        | nil => simp [saveSeq]
        | cons x xs ihx =>
          rw [List.cons_append, saveSeq, saveSeq]
          have hl : counter + (x :: xs).length = counter + 1 + xs.length := by
            simp only [List.length_cons]; omega
          rw [hl, ihx (counter + 1) _]

      rw [h1, h2]

/-- Claim C7: across all `process_message` calls of one agent instance
starting from counter `0`, the metadata records are exactly one per private
segment with consecutive ids `0, 1, 2, ...`, the final counter equals the
total number of private segments, and every record has `encrypted = true`,
`size_bytes` equal to its stored blob's length, a filepath determined by
the wall clock alone, and a timestamp from the clock stream — never the
segment text or key material (the record type carries no such field). -/
theorem metadata_ids_spec (E : List Nat → List Nat → List Nat) (key : List Nat)
    (ivs : Nat → List Nat) (clock : Nat → PyDateTime) (stamps : Nat → ℚ)
    (fs : FileSystem) (msgs : List String) :
    (run_messages E key ivs clock stamps ⟨0, fs⟩ msgs).1
        = (List.enumFrom 0 (allPrivates msgs)).map
            (fun p => metaFor E key ivs clock stamps p.1 p.2)
      ∧ (run_messages E key ivs clock stamps ⟨0, fs⟩ msgs).1.map (fun m => m.id)
          = List.range (allPrivates msgs).length
      ∧ (run_messages E key ivs clock stamps ⟨0, fs⟩ msgs).2.counter
          = (allPrivates msgs).length
      ∧ (run_messages E key ivs clock stamps ⟨0, fs⟩ msgs).1.all
          (fun m => m.encrypted
            && (m.filepath == save_path (clock m.id))
            && decide (m.timestamp = stamps m.id)) = true := by
  have h := run_messages_eq E key ivs clock stamps msgs 0 fs
  refine ⟨by rw [h], ?_, by rw [h]; simp, ?_⟩
  · rw [h]
    simp only [List.map_map]
    have : ((fun m : ThoughtMeta => m.id) ∘
        fun p : Nat × String => metaFor E key ivs clock stamps p.1 p.2) = Prod.fst := by
      funext p
      rfl
    rw [this, List.enumFrom_map_fst, List.range_eq_range']
  · rw [h]
    rw [List.all_eq_true]
    intro m hm
    rcases List.mem_map.mp hm with ⟨p, _, hp⟩
    rw [← hp]
    simp [metaFor]

/-! #### Concrete-evaluation helpers for the classifier -/

theorem intro_score_zero (s : String)
    (hfp : countMatches firstPersonWords s.data = 0)
    (htv : countMatches thinkingVerbWords s.data = 0)
    (hun : countMatches uncertaintyWords s.data = 0) :
    calculate_introspection_score s = 0 := by
  simp only [calculate_introspection_score, hfp, htv, hun]
  by_cases h : word_count s.data = 0
  · simp [h]
  · rw [if_neg h, min_def]
    norm_num

theorem sens_score_zero (s : String)
    (htop : (sensitiveTopicAlts.map (fun alts => countMatches alts s.data)).sum = 0)
    (hcau : countMatches cautionWords s.data = 0) :
    calculate_sensitivity_score s = 0 := by
  simp only [calculate_sensitivity_score, htop, hcau]
  by_cases h : word_count s.data = 0
  · simp [h]
  · rw [if_neg h, min_def]
    norm_num

theorem is_likely_private_false_of (s : String)
    (hm : matchesAnyPrivacyPattern s = false)
    (h1 : calculate_introspection_score s = 0)
    (h2 : calculate_sensitivity_score s = 0) :
    is_likely_private s = false := by
  rw [is_likely_private, hm, h1, h2]
  norm_num

/-- Spec Scenario B: no privacy signals at all. -/
def scenarioB : String := "The sky is blue. Water is wet."

set_option maxRecDepth 4000 in
theorem process_message_spec_witness :
    privateSegments scenarioB = []
    ∧ (process_message (fun _ b => b) [] (fun _ => List.replicate 16 0)
        (fun _ => ⟨2024, 1, 2, 3, 4, 5⟩) (fun _ => 0) ⟨0, []⟩ scenarioB).2.1 = []
    ∧ (process_message (fun _ b => b) [] (fun _ => List.replicate 16 0)
        (fun _ => ⟨2024, 1, 2, 3, 4, 5⟩) (fun _ => 0) ⟨0, []⟩ scenarioB).2.2.fs = [] := by
  have hseg : split_into_segments scenarioB = [scenarioB] := by decide
  have hm : matchesAnyPrivacyPattern scenarioB = false := by decide
  have hfp : countMatches firstPersonWords scenarioB.data = 0 := by decide
  have htv : countMatches thinkingVerbWords scenarioB.data = 0 := by decide
  have hun : countMatches uncertaintyWords scenarioB.data = 0 := by decide
  have htop : (sensitiveTopicAlts.map
      (fun alts => countMatches alts scenarioB.data)).sum = 0 := by decide
  have hcau : countMatches cautionWords scenarioB.data = 0 := by decide
  have hpriv : is_likely_private scenarioB = false :=
    is_likely_private_false_of scenarioB hm
      (intro_score_zero scenarioB hfp htv hun) (sens_score_zero scenarioB htop hcau)
  have hps : privateSegments scenarioB = [] := by
    rw [privateSegments, hseg]
    simp [hpriv]
  have h := (process_message_spec (fun _ b => b) [] (fun _ => List.replicate 16 0)
      (fun _ => ⟨2024, 1, 2, 3, 4, 5⟩) (fun _ => 0) ⟨0, []⟩ scenarioB).2 hps
  exact ⟨hps, h.1, h.2⟩

/-! ### Key Provider (`EncryptionManager._load_or_create_key`), claim C1

The key-file branch reads the file, strips whitespace, and returns
`base64.b64decode(contents)` — with no check that the result has
`KEY_SIZE = 32` bytes.  `b64decode` models Python's
`base64.b64decode(s, validate=False)`: characters outside the base64
alphabet are discarded, the remaining length must be a multiple of four
(else `binascii.Error`, here `none`), and `=` padding terminates the
data. -/

/-- The six-bit value of a base64 alphabet character. -/
def b64Val (c : Char) : Option Nat :=
  if 65 ≤ c.toNat ∧ c.toNat ≤ 90 then some (c.toNat - 65)
  else if 97 ≤ c.toNat ∧ c.toNat ≤ 122 then some (c.toNat - 97 + 26)
  else if 48 ≤ c.toNat ∧ c.toNat ≤ 57 then some (c.toNat - 48 + 52)
  else if c == '+' then some 62
  else if c == '/' then some 63
  else none

/-- Membership in the base64 alphabet. -/
def isB64Char (c : Char) : Bool := (b64Val c).isSome

/-- Decode groups of four base64 characters into bytes; `=` padding in the
third or fourth position ends the data. -/
def b64Quads : List Char → Option (List Nat)
  | [] => some []
  | a :: b :: c :: d :: rest =>
    match b64Val a, b64Val b with
    | some va, some vb =>
      if c == '=' then
        if d == '=' then some [va * 4 + vb / 16] else none
      else
        match b64Val c with
        | some vc =>
          if d == '=' then some [va * 4 + vb / 16, (vb % 16) * 16 + vc / 4]
          else
            match b64Val d with
            | some vd =>
              (b64Quads rest).map (fun tl =>
                (va * 4 + vb / 16) :: ((vb % 16) * 16 + vc / 4) :: ((vc % 4) * 64 + vd) :: tl)
            | none => none
        | none => none
    | _, _ => none
  | _ => none

/-- `base64.b64decode(s, validate=False)`; `none` is `binascii.Error`. -/
def b64decode (s : String) : Option (List Nat) :=
  let cs := s.data.filter (fun c => isB64Char c || c == '=')
  if cs.length % 4 = 0 then b64Quads cs else none

/-- The key-file-exists branch of `_load_or_create_key`:
`base64.b64decode(key_file.read().strip())`, returned as the key. -/
def load_existing_key (contents : String) : Option (List Nat) :=
  b64decode (pyStrip contents)

/-- Counterexample to claim C1: a key file containing `"AAAA"` decodes to
the three bytes `[0, 0, 0]`, and `_load_or_create_key` returns them as the
key — three bytes, not `KEY_SIZE = 32` — instead of failing. -/
theorem load_existing_key_wrong_length :
    load_existing_key "AAAA" = some [0, 0, 0]
    ∧ (some [0, 0, 0] : Option (List Nat)) ≠ none
    ∧ [0, 0, 0].length ≠ 32 := by
  refine ⟨by decide, by decide, by decide⟩

/-- Claim C1 amended: if the key file exists, the provider returns the
base64 decode of the stripped contents whenever decoding succeeds — with no
length validation, so a decode of length other than `KEY_SIZE = 32` is
returned unchecked as the key — and fails only when base64 decoding itself
fails. -/
theorem load_existing_key_no_validation :
    (∀ (s : String) (bs : List Nat),
        b64decode (pyStrip s) = some bs → load_existing_key s = some bs)
    ∧ (∀ s : String, b64decode (pyStrip s) = none → load_existing_key s = none)
    ∧ (∃ (s : String) (bs : List Nat),
        load_existing_key s = some bs ∧ bs.length ≠ 32) :=
  ⟨fun _ _ h => h, fun _ h => h, ⟨"AAAA", [0, 0, 0], by decide, by decide⟩⟩

theorem load_existing_key_no_validation_witness :
    b64decode (pyStrip "AAAA") = some [0, 0, 0]
    ∧ load_existing_key "AAAA" = some [0, 0, 0]
    ∧ b64decode (pyStrip "AAA") = none
    ∧ load_existing_key "AAA" = none :=
  ⟨by decide, load_existing_key_no_validation.1 "AAAA" [0, 0, 0] (by decide),
   by decide, load_existing_key_no_validation.2.1 "AAA" (by decide)⟩

end LLMSecrets
